import Mathlib

/-!
Shallow embedding of `src/advanced_crawler.py` (itisuniqueofficial/advanced-web-crawler).

The crawler's mutable process state (the module-level `visited_urls` set, the
`save_results` list, the Selenium driver calls and the per-page
`ThreadPoolExecutor` creations) is made explicit in a `CrawlState` record that is
threaded through the functions.  Fetching through the shared Selenium driver
(`driver.get(url)`; any exception is caught at line 136 of the source) is
modelled by an oracle `g : String -> Nat -> Option Page`: `g u n` is the outcome
of the (n+1)-st `driver.get` navigation to `u` in this process (`none` = the
navigation raised an exception), so transient failures that would succeed on a
retry are expressible.  Library functions from `urllib.parse` (`urlparse`,
`urljoin`) are modelled on character lists for the common absolute-URL shapes
the crawler manipulates.
-/

/-- Model of Python `url.split('/')`: splits a character list at every `/`,
keeping empty segments, exactly like `str.split` with an explicit separator. -/
def splitSlashAux : List Char → List Char → List String
  | [], acc => [String.mk acc.reverse]
  | '/' :: rest, acc => String.mk acc.reverse :: splitSlashAux rest []
  | c :: rest, acc => splitSlashAux rest (c :: acc)

/-- `url.split('/')` on a Lean string. -/
def splitSlash (url : String) : List String :=
  splitSlashAux url.data []

/-- Source line 79-80, `is_spider_trap`:
`len(set(url.split('/'))) < len(url.split('/')) / 2`.
With integers, `a < b / 2` (Python true division) is `2 * a < b`. -/
def is_spider_trap (url : String) : Bool :=
  let parts := splitSlash url
  decide (2 * parts.dedup.length < parts.length)

/-- Model of `urlparse(url)`: scheme part and remainder after `"://"`, when the
URL has the absolute `scheme://...` shape (the only shape the crawler builds). -/
def splitScheme : List Char → Option (List Char × List Char)
  | [] => none
  | ':' :: '/' :: '/' :: rest => some ([], rest)
  | c :: rest =>
    match splitScheme rest with
    | some (sch, r) => some (c :: sch, r)
    | none => none

/-- Model of `urlparse(url).netloc` (source line 52-53, `extract_domain`):
the host part between `"://"` and the next `/`, `?` or `#`; empty when the URL
has no `"://"`. -/
def extract_domain (url : String) : String :=
  match splitScheme url.data with
  | none => ""
  | some (_, rest) => String.mk (rest.takeWhile (fun c => c ≠ '/' ∧ c ≠ '?' ∧ c ≠ '#'))

/-- Source line 56-57, `is_same_domain`: `extract_domain(start_url) == extract_domain(link_url)`. -/
def is_same_domain (start_url link_url : String) : Bool :=
  extract_domain start_url == extract_domain link_url

/-- Model of `urljoin(base, href)` for the cases the crawler exercises: an href
that carries its own scheme is returned as is; a root-relative href is resolved
against the base's scheme and host; any other href replaces the last path
segment of the base. -/
def urljoin (base href : String) : String :=
  if (splitScheme href.data).isSome then href
  else
    match splitScheme base.data with
    | none => href
    | some (sch, rest) =>
      let host := rest.takeWhile (fun c => c ≠ '/')
      let path := rest.drop host.length
      if href.data.head? = some '/' then
        String.mk (sch ++ [':', '/', '/'] ++ host ++ href.data)
      else
        let dir := (path.reverse.dropWhile (fun c => c ≠ '/')).reverse
        String.mk (sch ++ [':', '/', '/'] ++ host ++ dir ++ href.data)

/-- Model of Python `full_url.startswith("http")` (source line 125), on the
string's characters. -/
def starts_with_http (url : String) : Bool :=
  match url.data with
  | 'h' :: 't' :: 't' :: 'p' :: _ => true
  | _ => false

/-- An `<a href=...>` element as the crawler sees it: the `href` attribute and
the optional `rel` attribute (BeautifulSoup returns `rel` as a list of tokens,
or `None` when absent).  `soup.find_all('a', href=True)` only yields anchors
that do have an href. -/
structure Anchor where
  href : String
  rel : Option (List String)
deriving DecidableEq

/-- A fetched, rendered page, reduced to the parts the crawler reads: the first
`<link rel="canonical">` href (source line 97), the meta description/keywords
and image list that `extract_content` returns (source lines 60-76), and the
anchor elements (source line 112). -/
structure Page where
  canonical : Option String
  metaDescription : String
  metaKeywords : String
  images : List String
  anchors : List Anchor
deriving DecidableEq

/-- One row of `save_results` (source line 108):
`(url, meta_description, meta_keywords, images)`. -/
abbrev ResultRow := String × String × String × List String

/-- The crawler's mutable process state.  `visited` is the module-level
`visited_urls` set (line 20), as a list with membership semantics; `results` is
the `save_results` list; `trace` records, in order, every URL passed to
`driver.get` (the fetch attempts); `pools` counts the
`concurrent.futures.ThreadPoolExecutor` instances created (source line 129). -/
structure CrawlState where
  visited : List String
  results : List ResultRow
  trace : List String
  pools : Nat
deriving DecidableEq

/-- The page-fetch oracle: `g u n` is the outcome of a `driver.get(u)`
navigation when `n` earlier navigations to `u` have already happened in this
process; `none` models the navigation raising an exception. -/
abbrev Fetcher := String → Nat → Option Page

/-- An attempt-independent oracle (a fixed link graph) lifted to a `Fetcher`. -/
def liftFetcher (g : String → Option Page) : Fetcher := fun u _ => g u

/-- The `links` loop of `fetch_url` (source lines 111-126): for each anchor,
compute `full_url = urljoin(url, href)`; skip it when `rel == ['nofollow']`
(line 117), when domain restriction is on and the domain differs from the
current page's (line 121), or when it does not start with `"http"` or is
already visited (line 125); otherwise append it. -/
def collectLinks (url : String) (domain_restriction : Bool) (visited : List String) :
    List Anchor → List String
  | [] => []
  | a :: rest =>
    let full_url := urljoin url a.href
    if a.rel = some ["nofollow"] then
      collectLinks url domain_restriction visited rest
    else if domain_restriction ∧ ¬ is_same_domain url full_url then
      collectLinks url domain_restriction visited rest
    else if starts_with_http full_url ∧ full_url ∉ visited then
      full_url :: collectLinks url domain_restriction visited rest
    else
      collectLinks url domain_restriction visited rest

/-- Source lines 96-99: when the page has a canonical link whose href is not
yet visited, the canonical href replaces the page's URL for recording and
further crawling; otherwise the URL is kept. -/
def replaceCanonical (pg : Page) (url : String) (visited : List String) : String :=
  match pg.canonical with
  | some c => if c ∉ visited then c else url
  | none => url

/-- Source lines 83-137, `fetch_url(url, depth, domain_restriction, rate_limit,
proxies, save_results)`.  Returns at once when `depth == 0`, the URL is already
visited, or `is_spider_trap` fires (line 84).  The dead local
`proxy = random.choice(proxies) if proxies else None` (line 89) is kept as an
unused binding (`random.choice` is modelled by the head of the list; the value
flows nowhere).  `driver.get(url)` is the oracle call, recorded in `trace`; an
exception (`none`) jumps to the handler at line 136, which only logs.  On
success the canonical-link replacement (lines 97-99), the `visited_urls.add`
(line 101), the `save_results.append` (line 108), the link collection and the
creation of a fresh `ThreadPoolExecutor` (line 129, counted in `pools`)
followed by the recursive crawl of each link at `depth - 1` (line 130) are
performed in source order.  `time.sleep(rate_limit)` has no state effect. -/
def fetch_url (g : Fetcher) (domain_restriction : Bool) (rate_limit : Nat)
    (proxies : Option (List String)) : Nat → String → CrawlState → CrawlState
  | 0, _, s => s
  | d + 1, url, s =>
    if url ∈ s.visited ∨ is_spider_trap url then s
    else
      let _proxy : Option String :=
        match proxies with
        | some (p :: _) => some p
        | _ => none
      let s1 : CrawlState := { s with trace := s.trace ++ [url] }
      match g url (s.trace.count url) with
      | none => s1
      | some pg =>
        let url2 := replaceCanonical pg url s1.visited
        let s2 : CrawlState :=
          { s1 with
            visited := url2 :: s1.visited
            results := s1.results ++ [(url2, pg.metaDescription, pg.metaKeywords, pg.images)] }
        let links := collectLinks url2 domain_restriction s2.visited pg.anchors
        let s3 : CrawlState := { s2 with pools := s2.pools + 1 }
        links.foldl (fun t v => fetch_url g domain_restriction rate_limit proxies d v t) s3
termination_by structural d _ _ => d

/-- Source lines 140-151, `bfs_crawl`: pop `(url, current_depth)`; skip it when
`current_depth >= depth` or the URL is visited (line 144); otherwise run
`fetch_url(url, depth - current_depth, ...)` and append every visited URL in
the domain of `start_urls[0]` to the queue at `current_depth + 1`
(lines 149-151).  The `while queue:` loop is run on explicit fuel; the
remaining queue is returned so that fuel exhaustion is observable (`[]` means
the loop exited as the source's does). -/
def bfs_loop (g : Fetcher) (start_urls : List String) (depth : Nat)
    (domain_restriction : Bool) (rate_limit : Nat) (proxies : Option (List String)) :
    Nat → List (String × Nat) → CrawlState → CrawlState × List (String × Nat)
  | 0, q, s => (s, q)
  | _ + 1, [], s => (s, [])
  | fuel + 1, (url, current_depth) :: q, s =>
    if depth ≤ current_depth ∨ url ∈ s.visited then
      bfs_loop g start_urls depth domain_restriction rate_limit proxies fuel q s
    else
      let s' := fetch_url g domain_restriction rate_limit proxies (depth - current_depth) url s
      let links_to_crawl := s'.visited.filter (fun u => is_same_domain start_urls.headI u)
      bfs_loop g start_urls depth domain_restriction rate_limit proxies fuel
        (q ++ links_to_crawl.map (fun link => (link, current_depth + 1))) s'

/-- Source lines 154-164, `web_crawler`: a fresh, empty `save_results` list per
invocation, but the module-level `visited_urls` set persists across
invocations and is received as `visited0`.  `trace` and `pools` are
per-invocation instrumentation.  Returns the final state and the remaining
queue (empty when the BFS loop ran to completion within `fuel`). -/
def web_crawler (g : Fetcher) (fuel : Nat) (urls : List String) (depth : Nat)
    (domain_restriction : Bool) (rate_limit : Nat) (proxies : Option (List String))
    (visited0 : List String) : CrawlState × List (String × Nat) :=
  bfs_loop g urls depth domain_restriction rate_limit proxies fuel
    (urls.map (fun u => (u, 0))) ⟨visited0, [], [], 0⟩

example : is_spider_trap "http://a.test/loop/loop/loop/" = false := by decide
example : extract_domain "http://a.test/x" = "a.test" := by decide

/-! ## Concrete runs used to settle the claims -/

/-- Page at `http://a.test/` carrying a canonical hint to `http://a.test/c` and
a link back to itself. -/
def c1_page : Page := ⟨some "http://a.test/c", "", "", [], [⟨"http://a.test/", none⟩]⟩

/-- Fetch oracle for claim C1: only `http://a.test/` resolves. -/
def c1_fetcher : Fetcher := fun u _ => if u = "http://a.test/" then some c1_page else none

/-- The C1 run: single seed `http://a.test/`, depth 2. -/
def c1_run : CrawlState × List (String × Nat) :=
  web_crawler c1_fetcher 10 ["http://a.test/"] 2 false 0 none []

/-- Claim C1 (code_bug): the dedup invariant fails even sequentially.  In the
C1 run the key `http://a.test/` is fetched twice (`driver.get` runs twice on
it) and both fetches record a result: the first records it under its canonical
URL `http://a.test/c` without ever adding `http://a.test/` itself to
`visited_urls` (source lines 96-101 add only the replaced URL), so the
check at line 84 passes again and a second result is recorded.  The run
completes (remaining queue empty). -/
theorem dedup_double_fetch_bug :
    (c1_run.1.trace.count "http://a.test/" = 2) ∧
    c1_run.1.results.map (fun r => r.1) = ["http://a.test/c", "http://a.test/"] ∧
    c1_run.2 = [] := by
  decide

/-- Plain page with no canonical hint and no links, used for claim C3. -/
def c3_page : Page := ⟨none, "d", "k", [], []⟩

/-- Fetch oracle for claim C3. -/
def c3_fetcher : Fetcher := fun u _ => if u = "http://a.test/" then some c3_page else none

/-- First invocation of `web_crawler` in the C3 process: fresh process-global
`visited_urls` (empty). -/
def c3_run1 : CrawlState × List (String × Nat) :=
  web_crawler c3_fetcher 10 ["http://a.test/"] 2 false 0 none []

/-- Second invocation of `web_crawler` in the same process: the module-level
`visited_urls` set still holds the first run's keys (source line 20; nothing in
`web_crawler`, lines 154-164, resets it). -/
def c3_run2 : CrawlState × List (String × Nat) :=
  web_crawler c3_fetcher 10 ["http://a.test/"] 2 false 0 none c3_run1.1.visited

/-- Claim C3 (code_bug): dedup state is not scoped to a single invocation.  The
first invocation fetches and records the seed; the second invocation of
`web_crawler` in the same process fetches nothing and records nothing, because
the module-level `visited_urls` set leaks across runs. -/
theorem visited_leaks_across_runs :
    c3_run1.1.results.length = 1 ∧ c3_run1.1.trace = ["http://a.test/"] ∧ c3_run1.2 = [] ∧
    c3_run2.1.results = [] ∧ c3_run2.1.trace = [] ∧ c3_run2.2 = [] := by
  decide

/-- Seed page for claim C4, linking to the spider-trap URL
`http://a.test/loop/loop/loop/`. -/
def c4_seed_page : Page := ⟨none, "", "", [], [⟨"http://a.test/loop/loop/loop/", none⟩]⟩

/-- Fetch oracle for claim C4: the seed and the trap URL both resolve. -/
def c4_fetcher : Fetcher := fun u _ =>
  if u = "http://a.test/" then some c4_seed_page
  else if u = "http://a.test/loop/loop/loop/" then some ⟨none, "", "", [], []⟩
  else none

/-- The C4 run: Scenario B of the spec, seed `http://a.test/`, depth 2. -/
def c4_run : CrawlState × List (String × Nat) :=
  web_crawler c4_fetcher 10 ["http://a.test/"] 2 false 0 none []

/-- Claim C4 (code_bug): the source's trap heuristic
(line 80: `len(set(url.split('/'))) < len(url.split('/')) / 2`) does not flag
`/loop/loop/loop/` (7 slash-parts, 4 distinct, and 8 < 7 is false), so the URL
with an immediately repeated path component is fetched and recorded, contrary
to the specified detector and Scenario B. -/
theorem spider_trap_not_flagged :
    is_spider_trap "http://a.test/loop/loop/loop/" = false ∧
    "http://a.test/loop/loop/loop/" ∈ c4_run.1.trace ∧
    ("http://a.test/loop/loop/loop/", "", "", []) ∈ c4_run.1.results ∧
    c4_run.2 = [] := by
  decide

/-- Fetch oracle for claim C5: navigating to the seed raises (a transient
failure) on the first two attempts and would succeed from the third attempt
on — the spec's Scenario D. -/
def c5_fetcher : Fetcher := fun u n =>
  if u = "http://a.test/" ∧ 2 ≤ n then some ⟨none, "", "", [], []⟩ else none

/-- The C5 run: seed `http://a.test/`, depth 2. -/
def c5_run : CrawlState × List (String × Nat) :=
  web_crawler c5_fetcher 10 ["http://a.test/"] 2 false 0 none []

/-- Claim C5 (code_bug): no retry happens on a transient fetch failure.  The
retry-configured `requests` session (source lines 31-35) is never used for
fetching — `fetch_url` fetches through `driver.get` (line 92) and its exception
handler (line 136) only logs.  With an oracle that fails the first two attempts
and would succeed on the third, the run makes exactly one attempt and records
nothing, instead of the claimed result-recorded-exactly-once after retries. -/
theorem no_retry_on_transient_failure :
    c5_fetcher "http://a.test/" 0 = none ∧
    c5_fetcher "http://a.test/" 1 = none ∧
    (c5_fetcher "http://a.test/" 2).isSome = true ∧
    c5_run.1.trace = ["http://a.test/"] ∧
    c5_run.1.results = [] ∧
    c5_run.2 = [] := by
  decide

/-- Seed page for claim C6: one link with `rel="nofollow noopener"` and one
with `rel="nofollow"` exactly. -/
def c6_seed_page : Page :=
  ⟨none, "", "", [],
    [⟨"http://a.test/multi", some ["nofollow", "noopener"]⟩,
     ⟨"http://a.test/single", some ["nofollow"]⟩]⟩

/-- Fetch oracle for claim C6. -/
def c6_fetcher : Fetcher := fun u _ =>
  if u = "http://a.test/" then some c6_seed_page
  else if u = "http://a.test/multi" then some ⟨none, "", "", [], []⟩
  else if u = "http://a.test/single" then some ⟨none, "", "", [], []⟩
  else none

/-- The C6 run: seed `http://a.test/`, depth 2. -/
def c6_run : CrawlState × List (String × Nat) :=
  web_crawler c6_fetcher 10 ["http://a.test/"] 2 false 0 none []

/-- Claim C6 (code_bug): the nofollow check at source line 117 compares
`link.get('rel')` with the exact singleton `['nofollow']`, so a link whose rel
value set is `["nofollow", "noopener"]` is followed and fetched, while only the
exact singleton is skipped — contrary to the claimed token-anywhere
behaviour. -/
theorem nofollow_multivalue_followed :
    "http://a.test/multi" ∈ c6_run.1.trace ∧
    "http://a.test/single" ∉ c6_run.1.trace ∧
    c6_run.2 = [] := by
  decide

/-- Seed page for claim C9, linking to one child page. -/
def c9_seed_page : Page := ⟨none, "", "", [], [⟨"http://a.test/v", none⟩]⟩

/-- Fetch oracle for claim C9. -/
def c9_fetcher : Fetcher := fun u _ =>
  if u = "http://a.test/" then some c9_seed_page
  else if u = "http://a.test/v" then some ⟨none, "", "", [], []⟩
  else none

/-- The C9 run: seed `http://a.test/`, depth 2. -/
def c9_run : CrawlState × List (String × Nat) :=
  web_crawler c9_fetcher 10 ["http://a.test/"] 2 false 0 none []

/-- Claim C9 (code_bug): concurrency is not bounded by one fixed pool per run.
`fetch_url` constructs a fresh `ThreadPoolExecutor` for every successfully
processed page (source line 129), recursively, so in a run that processes two
pages two worker pools are created — pool creation grows with the number of
pages (hence with depth and branching), contrary to the claimed single
fixed-size pool. -/
theorem worker_pool_spawned_per_page :
    c9_run.1.pools = 2 ∧ c9_run.1.results.length = 2 ∧ c9_run.2 = [] := by
  decide

/-- Seed page for the claim C7 counterexample: a canonical hint pointing at a
different host, and a link to that host. -/
def c7_seed_page : Page :=
  ⟨some "http://evil.test/x", "", "", [], [⟨"http://evil.test/y", none⟩]⟩

/-- Fetch oracle for the claim C7 counterexample. -/
def c7_fetcher : Fetcher := fun u _ =>
  if u = "http://a.test/" then some c7_seed_page
  else if u = "http://evil.test/y" then some ⟨none, "", "", [], []⟩
  else none

/-- The C7 counterexample run: seed `http://a.test/`, depth 2, domain
restriction enabled. -/
def c7_run : CrawlState × List (String × Nat) :=
  web_crawler c7_fetcher 10 ["http://a.test/"] 2 true 0 none []

/-- Claim C7 counterexample: with domain restriction enabled, a URL on a host
different from the seed's is still fetched.  The canonical-link replacement
(source lines 96-99) rebinds `url` to `http://evil.test/x`, and the
same-domain check at line 121 compares each link against that replaced URL, so
`http://evil.test/y` passes the filter and is fetched even though its host
differs from the seed host `a.test`. -/
theorem domain_restriction_counterexample :
    "http://evil.test/y" ∈ c7_run.1.trace ∧
    extract_domain "http://evil.test/y" ≠ extract_domain "http://a.test/" ∧
    c7_run.2 = [] := by
  decide
section C10

/-- Congruence for folding a crawl step over a link list. -/
theorem foldl_crawl_congr (f₁ f₂ : String → CrawlState → CrawlState)
    (h : ∀ v t, f₁ v t = f₂ v t) :
    ∀ (ls : List String) (s : CrawlState),
      ls.foldl (fun t v => f₁ v t) s = ls.foldl (fun t v => f₂ v t) s := by
  intro ls
  induction ls with
  | nil => intro s; rfl
  | cons v vs ih => intro s; simp only [List.foldl_cons, h v s, ih]

/-- `fetch_url` ignores the proxies argument: the proxy chosen at source line
89 is never used. -/
theorem fetch_url_proxies (g : Fetcher) (dr : Bool) (rl : Nat)
    (p₁ p₂ : Option (List String)) :
    ∀ (d : Nat) (u : String) (s : CrawlState),
      fetch_url g dr rl p₁ d u s = fetch_url g dr rl p₂ d u s := by
  intro d
  induction d with
  | zero => intro u s; rfl
  | succ d ih =>
    intro u s
    simp only [fetch_url]
    split
    · rfl
    · cases g u (s.trace.count u) with
      | none => rfl
      | some pg =>
        exact foldl_crawl_congr _ _ (fun v t => ih v t) _ _

/-- `bfs_crawl` ignores the proxies argument. -/
theorem bfs_loop_proxies (g : Fetcher) (seeds : List String) (depth : Nat)
    (dr : Bool) (rl : Nat) (p₁ p₂ : Option (List String)) :
    ∀ (fuel : Nat) (q : List (String × Nat)) (s : CrawlState),
      bfs_loop g seeds depth dr rl p₁ fuel q s = bfs_loop g seeds depth dr rl p₂ fuel q s := by
  intro fuel
  induction fuel with
  | zero => intro q s; rfl
  | succ fuel ih =>
    intro q s
    cases q with
    | nil => rfl
    | cons e q' =>
      obtain ⟨url, cd⟩ := e
      simp only [bfs_loop]
      split
      · exact ih q' s
      · rw [fetch_url_proxies g dr rl p₁ p₂]
        exact ih _ _

end C10

/-- Claim C10: the crawl's fetching behaviour and recorded results are
independent of the proxies argument.  The proxy chosen at source line 89 is
never passed to `driver.get`, so two `web_crawler` invocations that differ only
in the proxies list (including no proxies at all) perform the same fetches and
produce the same state — visited set, results, fetch trace and all. -/
theorem proxies_independence (g : Fetcher) (fuel : Nat) (urls : List String)
    (depth : Nat) (dr : Bool) (rl : Nat) (p₁ p₂ : Option (List String))
    (visited0 : List String) :
    web_crawler g fuel urls depth dr rl p₁ visited0 =
      web_crawler g fuel urls depth dr rl p₂ visited0 := by
  simp only [web_crawler]
  exact bfs_loop_proxies g urls depth dr rl p₁ p₂ fuel _ _
section Unfolding

theorem fetch_url_zero (g : Fetcher) (dr : Bool) (rl : Nat) (px : Option (List String))
    (u : String) (s : CrawlState) : fetch_url g dr rl px 0 u s = s := rfl

theorem fetch_url_skip (g : Fetcher) (dr : Bool) (rl : Nat) (px : Option (List String))
    (d : Nat) (u : String) (s : CrawlState)
    (h : u ∈ s.visited ∨ is_spider_trap u = true) :
    fetch_url g dr rl px (d + 1) u s = s := by
  simp only [fetch_url]
  rw [if_pos h]

theorem fetch_url_err (g : Fetcher) (dr : Bool) (rl : Nat) (px : Option (List String))
    (d : Nat) (u : String) (s : CrawlState)
    (h : ¬(u ∈ s.visited ∨ is_spider_trap u = true))
    (hg : g u (s.trace.count u) = none) :
    fetch_url g dr rl px (d + 1) u s = { s with trace := s.trace ++ [u] } := by
  simp only [fetch_url]
  rw [if_neg h]
  simp only [hg]

theorem fetch_url_succ (g : Fetcher) (dr : Bool) (rl : Nat) (px : Option (List String))
    (d : Nat) (u : String) (s : CrawlState) (pg : Page)
    (h : ¬(u ∈ s.visited ∨ is_spider_trap u = true))
    (hg : g u (s.trace.count u) = some pg) :
    fetch_url g dr rl px (d + 1) u s =
      (collectLinks (replaceCanonical pg u s.visited) dr
          (replaceCanonical pg u s.visited :: s.visited) pg.anchors).foldl
        (fun t v => fetch_url g dr rl px d v t)
        ⟨replaceCanonical pg u s.visited :: s.visited,
         s.results ++ [(replaceCanonical pg u s.visited, pg.metaDescription,
            pg.metaKeywords, pg.images)],
         s.trace ++ [u], s.pools + 1⟩ := by
  simp only [fetch_url]
  rw [if_neg h]
  simp only [hg]

end Unfolding
section Reach

/-- All link targets a page at `u` can contribute, independent of crawl state:
the canonical hint (it replaces the page's identity and is a link element of
the page) and every anchor href resolved against either the original URL or
the canonical URL.  The link lists `fetch_url` actually follows are always a
subset of this. -/
def linksOf (g : String → Option Page) (u : String) : List String :=
  match g u with
  | none => []
  | some pg =>
    pg.canonical.toList ++
      (u :: pg.canonical.toList).flatMap (fun b => pg.anchors.map (fun a => urljoin b a.href))

/-- URLs reachable from the seeds in at most `n` link steps. -/
def reachTo (g : String → Option Page) (seeds : List String) : Nat → List String
  | 0 => seeds
  | n + 1 => reachTo g seeds n ++ (reachTo g seeds n).flatMap (linksOf g)

theorem reachTo_mono (g : String → Option Page) (seeds : List String) {m n : Nat}
    (h : m ≤ n) : ∀ u, u ∈ reachTo g seeds m → u ∈ reachTo g seeds n := by
  induction h with
  | refl => exact fun u hu => hu
  | step _ ih => exact fun u hu => List.mem_append_left _ (ih u hu)

theorem reachTo_step (g : String → Option Page) (seeds : List String) {n : Nat}
    {u v : String} (hu : u ∈ reachTo g seeds n) (hv : v ∈ linksOf g u) :
    v ∈ reachTo g seeds (n + 1) :=
  List.mem_append_right _ (List.mem_flatMap.mpr ⟨u, hu, hv⟩)

theorem canonical_sub_linksOf {g : String → Option Page} {u : String} {pg : Page}
    (hg : g u = some pg) : ∀ c ∈ pg.canonical.toList, c ∈ linksOf g u := by
  intro c hc
  simp only [linksOf, hg]
  exact List.mem_append_left _ hc

theorem anchor_sub_linksOf {g : String → Option Page} {u b : String} {pg : Page}
    (hg : g u = some pg) (hb : b = u ∨ b ∈ pg.canonical.toList) {a : Anchor}
    (ha : a ∈ pg.anchors) : urljoin b a.href ∈ linksOf g u := by
  simp only [linksOf, hg]
  refine List.mem_append_right _ (List.mem_flatMap.mpr ⟨b, ?_, List.mem_map.mpr ⟨a, ha, rfl⟩⟩)
  rcases hb with hb | hb
  · exact hb ▸ List.mem_cons_self _ _
  · exact List.mem_cons_of_mem _ hb

/-- The canonical replacement yields either the original URL or the page's
canonical href. -/
theorem replaceCanonical_cases (pg : Page) (u : String) (vis : List String) :
    replaceCanonical pg u vis = u ∨ replaceCanonical pg u vis ∈ pg.canonical.toList := by
  unfold replaceCanonical
  cases pg.canonical with
  | none => exact Or.inl rfl
  | some c =>
    by_cases h : c ∈ vis
    · simp [h]
    · simp [h]

/-- Every URL `collectLinks` returns is an anchor href of the page resolved
against the page's (possibly canonical-replaced) URL. -/
theorem collectLinks_shape (url : String) (dr : Bool) (vis : List String) :
    ∀ (anchors : List Anchor) (v : String), v ∈ collectLinks url dr vis anchors →
      ∃ a ∈ anchors, v = urljoin url a.href := by
  intro anchors
  induction anchors with
  | nil => intro v hv; simp [collectLinks] at hv
  | cons a rest ih =>
    intro v hv
    simp only [collectLinks] at hv
    split at hv
    · obtain ⟨b, hb, he⟩ := ih v hv; exact ⟨b, List.mem_cons_of_mem a hb, he⟩
    · split at hv
      · obtain ⟨b, hb, he⟩ := ih v hv; exact ⟨b, List.mem_cons_of_mem a hb, he⟩
      · split at hv
        · rcases List.mem_cons.mp hv with h | h
          · exact ⟨a, List.mem_cons_self a rest, h⟩
          · obtain ⟨b, hb, he⟩ := ih v h; exact ⟨b, List.mem_cons_of_mem a hb, he⟩
        · obtain ⟨b, hb, he⟩ := ih v hv; exact ⟨b, List.mem_cons_of_mem a hb, he⟩

/-- A state predicate preserved by every crawl step of a link list is preserved
by the whole fold. -/
theorem foldl_crawl_pres (P : CrawlState → Prop) (f : String → CrawlState → CrawlState)
    (links : List String) (hstep : ∀ v ∈ links, ∀ t, P t → P (f v t)) :
    ∀ s, P s → P (links.foldl (fun t v => f v t) s) := by
  induction links with
  | nil => exact fun s hs => hs
  | cons v vs ih =>
    intro s hs
    simp only [List.foldl_cons]
    exact ih (fun w hw t ht => hstep w (List.mem_cons_of_mem v hw) t ht) _
      (hstep v (List.mem_cons_self v vs) s hs)

/-- `fetch_url` only ever adds to the visited set (source line 101). -/
theorem fetch_url_visited_mono (g : Fetcher) (dr : Bool) (rl : Nat)
    (px : Option (List String)) :
    ∀ (d : Nat) (u : String) (s : CrawlState),
      s.visited ⊆ (fetch_url g dr rl px d u s).visited := by
  intro d
  induction d with
  | zero => intro u s; rw [fetch_url_zero]; exact fun x hx => hx
  | succ d ih =>
    intro u s
    by_cases h : u ∈ s.visited ∨ is_spider_trap u = true
    · rw [fetch_url_skip g dr rl px d u s h]; exact fun x hx => hx
    · cases hg : g u (s.trace.count u) with
      | none => rw [fetch_url_err g dr rl px d u s h hg]; exact fun x hx => hx
      | some pg =>
        rw [fetch_url_succ g dr rl px d u s pg h hg]
        intro x hx
        exact foldl_crawl_pres (fun t => x ∈ t.visited) _ _ (fun v _ t ht => ih v t ht) _
          (List.mem_cons_of_mem _ hx)

/-- The depth-indexed reachability invariant: every URL ever passed to
`driver.get` and every recorded result URL is within `D` link steps of a
seed. -/
def ReachInv (g : String → Option Page) (seeds : List String) (D : Nat)
    (s : CrawlState) : Prop :=
  (∀ t ∈ s.trace, t ∈ reachTo g seeds D) ∧
  (∀ r ∈ s.results, r.1 ∈ reachTo g seeds D)

theorem fetch_url_reach (g : String → Option Page) (seeds : List String) (D : Nat)
    (dr : Bool) (rl : Nat) (px : Option (List String)) :
    ∀ (d : Nat) (u : String) (s : CrawlState), d ≤ D → u ∈ reachTo g seeds (D - d) →
      ReachInv g seeds D s → ReachInv g seeds D (fetch_url (liftFetcher g) dr rl px d u s) := by
  intro d
  induction d with
  | zero => intro u s _ _ hs; rw [fetch_url_zero]; exact hs
  | succ d ih =>
    intro u s hdD hu hs
    by_cases h : u ∈ s.visited ∨ is_spider_trap u = true
    · rw [fetch_url_skip _ dr rl px d u s h]; exact hs
    · have huD : u ∈ reachTo g seeds D := reachTo_mono g seeds (Nat.sub_le D (d + 1)) u hu
      have htr : ∀ t ∈ s.trace ++ [u], t ∈ reachTo g seeds D := by
        intro t ht
        rcases List.mem_append.mp ht with hh | hh
        · exact hs.1 t hh
        · rw [List.mem_singleton.mp hh]; exact huD
      cases hg : liftFetcher g u (s.trace.count u) with
      | none => rw [fetch_url_err _ dr rl px d u s h hg]; exact ⟨htr, hs.2⟩
      | some pg =>
        rw [fetch_url_succ _ dr rl px d u s pg h hg]
        have hgu : g u = some pg := hg
        have hsub : D - (d + 1) + 1 = D - d := by omega
        have hc2 := replaceCanonical_cases pg u s.visited
        have hu2r : replaceCanonical pg u s.visited ∈ reachTo g seeds (D - d) := by
          rcases hc2 with hh | hh
          · rw [hh]; exact reachTo_mono g seeds (by omega) u hu
          · exact hsub ▸ reachTo_step g seeds hu (canonical_sub_linksOf hgu _ hh)
        refine foldl_crawl_pres (ReachInv g seeds D) _ _ (fun v hv t ht => ?_) _ ⟨htr, ?_⟩
        · obtain ⟨a, ha, hve⟩ := collectLinks_shape _ dr _ pg.anchors v hv
          have hvlinks : v ∈ linksOf g u := by
            rw [hve]; exact anchor_sub_linksOf hgu hc2 ha
          exact ih v t (by omega) (hsub ▸ reachTo_step g seeds hu hvlinks) ht
        · intro r hr
          rcases List.mem_append.mp hr with hh | hh
          · exact hs.2 r hh
          · rw [List.mem_singleton.mp hh]
            exact reachTo_mono g seeds (Nat.sub_le D d) _ hu2r

/-- Queue invariant of `bfs_crawl`: every queued URL is a seed or already
visited (all non-seed entries are drawn from the visited set, lines
149-151). -/
def QueueInv (seeds : List String) (q : List (String × Nat)) (s : CrawlState) : Prop :=
  ∀ e ∈ q, e.1 ∈ seeds ∨ e.1 ∈ s.visited

theorem bfs_loop_reach (g : String → Option Page) (seeds : List String) (D : Nat)
    (dr : Bool) (rl : Nat) (px : Option (List String)) :
    ∀ (fuel : Nat) (q : List (String × Nat)) (s : CrawlState),
      QueueInv seeds q s → ReachInv g seeds D s →
      ReachInv g seeds D (bfs_loop (liftFetcher g) seeds D dr rl px fuel q s).1 := by
  intro fuel
  induction fuel with
  | zero => intro q s _ hs; exact hs
  | succ fuel ih =>
    intro q s hq hs
    cases q with
    | nil => exact hs
    | cons e q' =>
      obtain ⟨url, cd⟩ := e
      simp only [bfs_loop]
      split
      · exact ih q' s (fun e he => hq e (List.mem_cons_of_mem _ he)) hs
      next hcond =>
        push_neg at hcond
        have hurl : url ∈ seeds := by
          rcases hq (url, cd) (List.mem_cons_self _ _) with hh | hh
          · exact hh
          · exact absurd hh hcond.2
        have hs' : ReachInv g seeds D
            (fetch_url (liftFetcher g) dr rl px (D - cd) url s) :=
          fetch_url_reach g seeds D dr rl px (D - cd) url s (Nat.sub_le D cd)
            (reachTo_mono g seeds (Nat.zero_le _) url hurl) hs
        apply ih
        · intro e he
          rcases List.mem_append.mp he with hh | hh
          · rcases hq e (List.mem_cons_of_mem _ hh) with h' | h'
            · exact Or.inl h'
            · exact Or.inr (fetch_url_visited_mono (liftFetcher g) dr rl px (D - cd) url s h')
          · obtain ⟨link, hlink, rfl⟩ := List.mem_map.mp hh
            exact Or.inr (List.mem_filter.mp hlink).1
        · exact hs'

end Reach

/-- Claim C2: the depth invariant.  First conjunct: in any completed-or-partial
run of `web_crawler` over a fixed link graph `g`, every URL passed to
`driver.get` and every recorded result URL lies within `D` link steps of a
seed.  Second conjunct: `fetch_url` with remaining-depth 0 returns without
fetching or recording anything (source line 84).  Third conjunct: `bfs_crawl`
skips any queue entry whose depth is at least the configured depth (source
line 144). -/
theorem depth_invariant :
    (∀ (g : String → Option Page) (seeds : List String) (D : Nat) (dr : Bool)
        (rl : Nat) (px : Option (List String)) (fuel : Nat) (v0 : List String),
      (∀ t ∈ (web_crawler (liftFetcher g) fuel seeds D dr rl px v0).1.trace,
        t ∈ reachTo g seeds D) ∧
      (∀ r ∈ (web_crawler (liftFetcher g) fuel seeds D dr rl px v0).1.results,
        r.1 ∈ reachTo g seeds D)) ∧
    (∀ (G : Fetcher) (dr : Bool) (rl : Nat) (px : Option (List String)) (u : String)
        (s : CrawlState), fetch_url G dr rl px 0 u s = s) ∧
    (∀ (G : Fetcher) (seeds : List String) (D : Nat) (dr : Bool) (rl : Nat)
        (px : Option (List String)) (fuel : Nat) (u : String) (cd : Nat)
        (q : List (String × Nat)) (s : CrawlState), D ≤ cd →
      bfs_loop G seeds D dr rl px (fuel + 1) ((u, cd) :: q) s =
        bfs_loop G seeds D dr rl px fuel q s) := by
  refine ⟨?_, ?_, ?_⟩
  · intro g seeds D dr rl px fuel v0
    have h := bfs_loop_reach g seeds D dr rl px fuel (seeds.map (fun u => (u, 0)))
      ⟨v0, [], [], 0⟩ ?_ ?_
    · exact h
    · intro e he
      obtain ⟨u, hu, rfl⟩ := List.mem_map.mp he
      exact Or.inl hu
    · exact ⟨fun t ht => absurd ht (List.not_mem_nil t), fun r hr => absurd hr (List.not_mem_nil r)⟩
  · exact fun G dr rl px u s => fetch_url_zero G dr rl px u s
  · intro G seeds D dr rl px fuel u cd q s hDcd
    simp only [bfs_loop]
    rw [if_pos (Or.inl hDcd)]

/-- Concrete two-page link graph used in the claim C2 witness. -/
def c2_graph : String → Option Page := fun u =>
  if u = "http://a.test/" then some ⟨none, "", "", [], [⟨"http://a.test/v", none⟩]⟩
  else if u = "http://a.test/v" then some ⟨none, "", "", [], []⟩
  else none

/-- Witness for claim C2 at a concrete input: the child page fetched by the
concrete run is reachable within 2 steps of the seed, and a queue entry at
depth 5 is skipped by a depth-2 BFS. -/
theorem depth_invariant_witness :
    "http://a.test/v" ∈ reachTo c2_graph ["http://a.test/"] 2 ∧
    bfs_loop (liftFetcher c2_graph) ["http://a.test/"] 2 false 0 none 1
        [("http://a.test/x", 5)] ⟨[], [], [], 0⟩ =
      bfs_loop (liftFetcher c2_graph) ["http://a.test/"] 2 false 0 none 0 [] ⟨[], [], [], 0⟩ :=
  ⟨(depth_invariant.1 c2_graph ["http://a.test/"] 2 false 0 none 10 []).1
      "http://a.test/v" (by decide),
   depth_invariant.2.2 (liftFetcher c2_graph) ["http://a.test/"] 2 false 0 none 0
      "http://a.test/x" 5 [] ⟨[], [], [], 0⟩ (by decide)⟩
section DomainRestriction

/-- With domain restriction on, every link `collectLinks` keeps has the same
extracted domain as the page URL it was collected from (source line 121). -/
theorem collectLinks_domain (url : String) (vis : List String) :
    ∀ (anchors : List Anchor) (v : String), v ∈ collectLinks url true vis anchors →
      extract_domain v = extract_domain url := by
  intro anchors
  induction anchors with
  | nil => intro v hv; simp [collectLinks] at hv
  | cons a rest ih =>
    intro v hv
    simp only [collectLinks] at hv
    split at hv
    · exact ih v hv
    · split at hv
      · exact ih v hv
      · rename_i hnf hdom
        have hsame : (extract_domain url == extract_domain (urljoin url a.href)) = true := by
          by_contra hcontra
          exact hdom ⟨trivial, fun hh => hcontra hh⟩
        have heq : extract_domain url = extract_domain (urljoin url a.href) :=
          eq_of_beq hsame
        split at hv
        · rcases List.mem_cons.mp hv with hh | hh
          · rw [hh, heq]
          · exact ih v hh
        · exact ih v hv
    
/-- The trace-domain invariant: every URL ever passed to `driver.get` has its
domain among `doms`. -/
def DomInv (doms : List String) (s : CrawlState) : Prop :=
  ∀ t ∈ s.trace, extract_domain t ∈ doms

theorem fetch_url_domain (G : Fetcher) (rl : Nat) (px : Option (List String))
    (doms : List String)
    (hcan : ∀ (u : String) (n : Nat) (pg : Page) (c : String), G u n = some pg →
      pg.canonical = some c → extract_domain c = extract_domain u) :
    ∀ (d : Nat) (u : String) (s : CrawlState), extract_domain u ∈ doms →
      DomInv doms s → DomInv doms (fetch_url G true rl px d u s) := by
  intro d
  induction d with
  | zero => intro u s _ hs; rw [fetch_url_zero]; exact hs
  | succ d ih =>
    intro u s hu hs
    by_cases h : u ∈ s.visited ∨ is_spider_trap u = true
    · rw [fetch_url_skip G true rl px d u s h]; exact hs
    · have htr : ∀ t ∈ s.trace ++ [u], extract_domain t ∈ doms := by
        intro t ht
        rcases List.mem_append.mp ht with hh | hh
        · exact hs t hh
        · rw [List.mem_singleton.mp hh]; exact hu
      cases hg : G u (s.trace.count u) with
      | none => rw [fetch_url_err G true rl px d u s h hg]; exact htr
      | some pg =>
        rw [fetch_url_succ G true rl px d u s pg h hg]
        have hdom2 : extract_domain (replaceCanonical pg u s.visited) = extract_domain u := by
          rcases replaceCanonical_cases pg u s.visited with hh | hh
          · rw [hh]
          · exact hcan u (s.trace.count u) pg _ hg (Option.mem_toList.mp hh)
        refine foldl_crawl_pres (DomInv doms) _ _ (fun v hv t ht => ?_) _ htr
        have hvd : extract_domain v = extract_domain u := by
          rw [collectLinks_domain _ _ pg.anchors v hv, hdom2]
        exact ih v t (hvd ▸ hu) ht

theorem bfs_loop_domain (G : Fetcher) (seeds : List String) (depth rl : Nat)
    (px : Option (List String))
    (hcan : ∀ (u : String) (n : Nat) (pg : Page) (c : String), G u n = some pg →
      pg.canonical = some c → extract_domain c = extract_domain u) :
    ∀ (fuel : Nat) (q : List (String × Nat)) (s : CrawlState),
      QueueInv seeds q s → DomInv (seeds.map extract_domain) s →
      DomInv (seeds.map extract_domain) (bfs_loop G seeds depth true rl px fuel q s).1 := by
  intro fuel
  induction fuel with
  | zero => intro q s _ hs; exact hs
  | succ fuel ih =>
    intro q s hq hs
    cases q with
    | nil => exact hs
    | cons e q' =>
      obtain ⟨url, cd⟩ := e
      simp only [bfs_loop]
      split
      · exact ih q' s (fun e he => hq e (List.mem_cons_of_mem _ he)) hs
      next hcond =>
        push_neg at hcond
        have hurl : url ∈ seeds := by
          rcases hq (url, cd) (List.mem_cons_self _ _) with hh | hh
          · exact hh
          · exact absurd hh hcond.2
        have hs' := fetch_url_domain G rl px (seeds.map extract_domain) hcan
          (depth - cd) url s (List.mem_map_of_mem extract_domain hurl) hs
        apply ih
        · intro e he
          rcases List.mem_append.mp he with hh | hh
          · rcases hq e (List.mem_cons_of_mem _ hh) with h' | h'
            · exact Or.inl h'
            · exact Or.inr (fetch_url_visited_mono G true rl px (depth - cd) url s h')
          · obtain ⟨link, hlink, rfl⟩ := List.mem_map.mp hh
            exact Or.inr (List.mem_filter.mp hlink).1
        · exact hs'

end DomainRestriction

/-- Claim C7, amended: when domain restriction is enabled AND no fetched page
carries a canonical hint pointing at a different host, every URL passed to
`driver.get` in a `web_crawler` run has the domain of one of the seeds.  (The
unamended claim is refuted by `domain_restriction_counterexample`: a cross-host
canonical hint rebinds the comparison base at source line 121.) -/
theorem domain_restriction_amended (G : Fetcher) (fuel : Nat) (seeds : List String)
    (depth rl : Nat) (px : Option (List String)) (v0 : List String)
    (hcan : ∀ (u : String) (n : Nat) (pg : Page) (c : String), G u n = some pg →
      pg.canonical = some c → extract_domain c = extract_domain u) :
    ∀ t ∈ (web_crawler G fuel seeds depth true rl px v0).1.trace,
      extract_domain t ∈ seeds.map extract_domain := by
  refine bfs_loop_domain G seeds depth rl px hcan fuel _ _ ?_ ?_
  · intro e he
    obtain ⟨u, hu, rfl⟩ := List.mem_map.mp he
    exact Or.inl hu
  · exact fun t ht => absurd ht (List.not_mem_nil t)

/-- Two-page, single-host link graph with no canonical hints, used in the
claim C7 witness. -/
def c7w_fetcher : Fetcher := fun u _ =>
  if u = "http://a.test/" then some ⟨none, "", "", [], [⟨"http://a.test/v", none⟩]⟩
  else if u = "http://a.test/v" then some ⟨none, "", "", [], []⟩
  else none

/-- Witness for the amended claim C7 at a concrete input: in a
domain-restricted run over a one-host graph without canonical hints, the
fetched child URL's domain is the seed's domain. -/
theorem domain_restriction_amended_witness :
    extract_domain "http://a.test/v" ∈ ["http://a.test/"].map extract_domain :=
  domain_restriction_amended c7w_fetcher 10 ["http://a.test/"] 2 0 none []
    (by
      intro u n pg c hg hc
      simp only [c7w_fetcher] at hg
      split at hg
      · cases hg; simp at hc
      · split at hg
        · cases hg; simp at hc
        · simp at hg)
    "http://a.test/v" (by decide)
section Termination

/-- Number of queue entries whose URL is not yet visited.  Only such entries
can trigger a fetch, and every queue entry `bfs_crawl` appends is drawn from
the visited set (source line 149), so this measure strictly decreases at every
fetch step and never increases otherwise. -/
def unvisitedCount (q : List (String × Nat)) (vis : List String) : Nat :=
  q.countP (fun e => decide (e.1 ∉ vis))

theorem unvisitedCount_mono {vis vis' : List String} (h : vis ⊆ vis') :
    ∀ q, unvisitedCount q vis' ≤ unvisitedCount q vis := by
  intro q
  induction q with
  | nil => exact Nat.le_refl _
  | cons e q ih =>
    unfold unvisitedCount at ih ⊢
    rw [List.countP_cons, List.countP_cons]
    by_cases he : e.1 ∈ vis
    · have h1 : (decide (e.1 ∉ vis) = true) = False := by simp [he]
      have h2 : (decide (e.1 ∉ vis') = true) = False := by simp [h he]
      simp only [h1, h2, if_false]
      omega
    · have h1 : (decide (e.1 ∉ vis) = true) := by simp [he]
      have h3 : (if decide (e.1 ∉ vis') = true then (1 : Nat) else 0) ≤ 1 := by
        split <;> omega
      simp only [h1, if_true]
      omega

theorem unvisitedCount_eq_zero {q : List (String × Nat)} {vis : List String}
    (h : ∀ e ∈ q, e.1 ∈ vis) : unvisitedCount q vis = 0 := by
  unfold unvisitedCount
  rw [List.countP_eq_zero]
  intro e he
  simp [h e he]

theorem bfs_loop_term (G : Fetcher) (seeds : List String) (depth : Nat) (dr : Bool)
    (rl : Nat) (px : Option (List String)) :
    ∀ (k l : Nat) (q : List (String × Nat)) (s : CrawlState),
      unvisitedCount q s.visited ≤ k → q.length ≤ l →
      ∃ n, (bfs_loop G seeds depth dr rl px n q s).2 = [] := by
  intro k
  induction k using Nat.strong_induction_on with
  | _ k ihk =>
    intro l
    induction l with
    | zero =>
      intro q s _ hl
      have hq : q = [] := List.length_eq_zero.mp (Nat.le_zero.mp hl)
      exact ⟨0, by rw [hq]; rfl⟩
    | succ l ihl =>
      intro q s hk hl
      cases q with
      | nil => exact ⟨0, rfl⟩
      | cons e q' =>
        obtain ⟨url, cd⟩ := e
        by_cases hc : depth ≤ cd ∨ url ∈ s.visited
        · have huc : unvisitedCount q' s.visited ≤ k := by
            have h2 : unvisitedCount q' s.visited ≤
                unvisitedCount ((url, cd) :: q') s.visited := by
              unfold unvisitedCount
              rw [List.countP_cons]
              exact Nat.le_add_right _ _
            omega
          have hl' : q'.length ≤ l := by
            simp only [List.length_cons] at hl
            omega
          obtain ⟨n, hn⟩ := ihl q' s huc hl'
          refine ⟨n + 1, ?_⟩
          simp only [bfs_loop]
          rw [if_pos hc]
          exact hn
        · have hnv : url ∉ s.visited := fun hh => hc (Or.inr hh)
          have h1 : unvisitedCount ((url, cd) :: q') s.visited =
              unvisitedCount q' s.visited + 1 := by
            unfold unvisitedCount
            rw [List.countP_cons]
            simp [hnv]
          have hsub : s.visited ⊆ (fetch_url G dr rl px (depth - cd) url s).visited :=
            fetch_url_visited_mono G dr rl px (depth - cd) url s
          have happ0 : unvisitedCount
              (((fetch_url G dr rl px (depth - cd) url s).visited.filter
                  (fun u => is_same_domain seeds.headI u)).map (fun link => (link, cd + 1)))
              (fetch_url G dr rl px (depth - cd) url s).visited = 0 := by
            refine unvisitedCount_eq_zero (fun e he => ?_)
            obtain ⟨link, hlink, rfl⟩ := List.mem_map.mp he
            exact (List.mem_filter.mp hlink).1
          have hq2 : unvisitedCount
              (q' ++ ((fetch_url G dr rl px (depth - cd) url s).visited.filter
                  (fun u => is_same_domain seeds.headI u)).map (fun link => (link, cd + 1)))
              (fetch_url G dr rl px (depth - cd) url s).visited ≤ k - 1 := by
            unfold unvisitedCount at happ0 h1 hk ⊢
            rw [List.countP_append, happ0]
            have hm := unvisitedCount_mono hsub q'
            unfold unvisitedCount at hm
            omega
          obtain ⟨n, hn⟩ := ihk (k - 1) (by omega) _
            (q' ++ ((fetch_url G dr rl px (depth - cd) url s).visited.filter
                (fun u => is_same_domain seeds.headI u)).map (fun link => (link, cd + 1)))
            (fetch_url G dr rl px (depth - cd) url s) hq2 (Nat.le_refl _)
          refine ⟨n + 1, ?_⟩
          simp only [bfs_loop]
          rw [if_neg hc]
          exact hn

end Termination

/-- Claim C8: every crawl terminates.  The `fetch_url` recursion is bounded by
its depth counter (it is a total function of the embedding for that reason),
and for any fetch oracle, seed list, depth and configuration the `bfs_crawl`
loop exits after finitely many iterations: some finite fuel leaves an empty
queue.  This covers in particular every finite acyclic link graph, and is
independent of worker scheduling because all queue appends are drawn from the
visited set and hence can never trigger another fetch. -/
theorem crawl_terminates (G : Fetcher) (urls : List String) (depth : Nat) (dr : Bool)
    (rl : Nat) (px : Option (List String)) (v0 : List String) :
    ∃ fuel, (web_crawler G fuel urls depth dr rl px v0).2 = [] := by
  obtain ⟨n, hn⟩ := bfs_loop_term G urls depth dr rl px
    (unvisitedCount (urls.map (fun u => (u, 0))) v0)
    (urls.map (fun u => (u, 0))).length
    (urls.map (fun u => (u, 0))) ⟨v0, [], [], 0⟩ (Nat.le_refl _) (Nat.le_refl _)
  exact ⟨n, hn⟩
